import Mathlib

/-!
Verification of the ModelExecution core of a C11 model checker
(src/execution.cc) against its natural-language specification.

The definitions below are a shallow embedding of the C++ source:
machine integers become Nat with explicit truncation where overflow
matters, NULL pointers become Option, the intrusive doubly linked
action lists become List, and the per-location hash maps are passed
in as explicit arguments.  External collaborators that the core only
calls through a virtual interface (the fuzzer, the happens-before
test implemented in action.cc, the MO-graph reachability test) are
passed in as function arguments, exactly at the granularity at which
execution.cc consumes their answers.
-/

namespace C11

/-- Action kinds, from action.h (only those the verified functions
dispatch on are distinguished; all remaining kinds are `otherOp`). -/
inductive ActionType where
  | atomicRead
  | atomicWrite
  | atomicRMW
  | nonatomicWrite
  | atomicUninit
  | atomicTrylock
  | atomicLock
  | atomicUnlock
  | atomicWait
  | atomicTimedwait
  | atomicNotifyOne
  | atomicNotifyAll
  | fenceOp
  | otherOp
  deriving DecidableEq, Repr

/-- Shallow embedding of ModelAction (action.h).  `aid` stands for the
object identity (pointer value) so that pointer comparisons such as
`act != last_sc_write` can be expressed; predicates such as
`is_seqcst()`/`is_acquire()`/`is_write()` that are computed from the
memory-order and kind fields in action.cc are carried as Boolean
fields.  `readsFrom` is the rf link (aid of the write read from, or
none for NULL). -/
structure MAction where
  aid : Nat
  tid : Nat
  seq : Nat
  value : Nat
  size : Nat
  typ : ActionType
  isSeqcst : Bool
  isAcquire : Bool
  isWrite : Bool
  isRead : Bool
  isRMW : Bool
  isRMWR : Bool
  isRMWRCas : Bool
  readsFrom : Option Nat
  deriving DecidableEq, Repr

/-- Clock vectors (clockvector.h): thread-id indexed vector of clocks. -/
def CVec : Type := List Nat

instance : DecidableEq CVec := by unfold CVec; infer_instance

/-- ClockVector::merge — pointwise max (missing entries count as 0). -/
def cvMerge : CVec → CVec → CVec
  | [], b => b
  | a, [] => a
  | x :: xs, y :: ys => max x y :: cvMerge xs ys

/-- Reachability in the MO graph along one or more recorded edges
(CycleGraph::checkReachable over the edges the verified code added). -/
inductive Reach (E : List (Nat × Nat)) : Nat → Nat → Prop
  | single {a b : Nat} : (a, b) ∈ E → Reach E a b
  | tail {a b c : Nat} : Reach E a b → (b, c) ∈ E → Reach E a c

theorem Reach.mono {E F : List (Nat × Nat)} (hEF : ∀ p ∈ E, p ∈ F) {a b : Nat}
    (h : Reach E a b) : Reach F a b := by
  induction h with
  | single h => exact Reach.single (hEF _ h)
  | tail _ h ih => exact Reach.tail ih (hEF _ h)

theorem Reach.trans {E : List (Nat × Nat)} {a b c : Nat}
    (h1 : Reach E a b) (h2 : Reach E b c) : Reach E a c := by
  induction h2 with
  | single h => exact Reach.tail h1 h
  | tail _ h ih => exact Reach.tail ih h

/-! ## valequals (execution.cc:1404) -/

/-- valequals(val1, val2, size): compares the two values truncated to
the given access size.  The `default` arm executes ASSERT(0), i.e. an
internal-invariant failure; it is modelled as `none`. -/
def valequals (val1 val2 : Nat) (size : Nat) : Option Bool :=
  if size = 1 then some (decide (val1 % 2 ^ 8 = val2 % 2 ^ 8))
  else if size = 2 then some (decide (val1 % 2 ^ 16 = val2 % 2 ^ 16))
  else if size = 4 then some (decide (val1 % 2 ^ 32 = val2 % 2 ^ 32))
  else if size = 8 then some (decide (val1 = val2))
  else none

/-! ## is_deadlocked (execution.cc:234) and is_complete_execution -/

/-- The per-thread facts is_deadlocked consults: whether the scheduler
reports the thread enabled, whether it is the model thread, and
whether it has a pending action (a non-NULL get_pending()). -/
structure ThreadEntry where
  enabled : Bool
  isModel : Bool
  hasPending : Bool
  deriving DecidableEq, Repr

/-- The loop body of ModelExecution::is_deadlocked, folding the
`blocking_threads` accumulator over the thread map in id order;
returns false immediately at the first enabled thread. -/
def is_deadlocked_loop : List ThreadEntry → Bool → Bool
  | [], blocking_threads => blocking_threads
  | t :: ts, blocking_threads =>
    if t.enabled then false
    else is_deadlocked_loop ts (blocking_threads || (!t.isModel && t.hasPending))

/-- ModelExecution::is_deadlocked (execution.cc:234). -/
def is_deadlocked (threads : List ThreadEntry) : Bool :=
  is_deadlocked_loop threads false

/-! ## Thread-table lookups (execution.cc:1292, 1306, 1607) -/

/-- ModelExecution::get_thread(thread_id_t) (execution.cc:1607):
bounds-checked lookup into thread_map, NULL beyond the end. -/
def get_thread (thread_map : List Nat) (tid : Nat) : Option Nat :=
  if h : tid < thread_map.length then some (thread_map.get ⟨tid, h⟩) else none

/-- ModelExecution::get_last_action (execution.cc:1292): bounds-checked
lookup into thrd_last_action, whose slots may themselves be NULL. -/
def get_last_action (thrd_last_action : List (Option MAction)) (tid : Nat) :
    Option MAction :=
  if h : tid < thrd_last_action.length then thrd_last_action.get ⟨tid, h⟩ else none

/-- ModelExecution::get_last_fence_release (execution.cc:1306): same
shape over thrd_last_fence_release. -/
def get_last_fence_release (thrd_last_fence_release : List (Option MAction))
    (tid : Nat) : Option MAction :=
  if h : tid < thrd_last_fence_release.length then
    thrd_last_fence_release.get ⟨tid, h⟩
  else none

/-! ## process_mutex, ATOMIC_TRYLOCK / ATOMIC_LOCK cases (execution.cc:355) -/

/-- The slice of execution state touched by the TRYLOCK/LOCK cases of
ModelExecution::process_mutex: the mutex state for curr's location
(`locked` is the owning thread id, NULL = free), curr's clock vector,
the thread's return value and the try_lock flag stored on curr. -/
structure MutexStepState where
  locked : Option Nat
  currCV : CVec
  retval : Nat
  tryLockFlag : Option Bool
  deriving DecidableEq

/-- ATOMIC_TRYLOCK case of process_mutex (execution.cc:356):
`success = !state.locked`; on failure only the return value (0) and
the try_lock flag change; on success the return value is 1 and control
falls through to the ATOMIC_LOCK case, which sets the owner to the
acting thread and, when get_last_unlock is non-NULL, synchronizes the
current action with it (merging the unlock's clock vector into
curr's).  `lastUnlockCV` is the clock vector of get_last_unlock(curr),
or none when that call returns NULL. -/
def process_mutex_trylock (curr : MAction) (lastUnlockCV : Option CVec)
    (s : MutexStepState) : MutexStepState :=
  let success : Bool := s.locked.isNone
  if !success then
    { s with retval := 0, tryLockFlag := some false }
  else
    let s1 : MutexStepState :=
      { s with retval := 1, tryLockFlag := some true, locked := some curr.tid }
    match lastUnlockCV with
    | none => s1
    | some ucv => { s1 with currCV := cvMerge s1.currCV ucv }

/-! ## process_mutex, ATOMIC_NOTIFY_ONE case (execution.cc:424) -/

/-- Modelled from the spec: Fuzzer::selectNotify, whose implementation
is not part of the sources under verification (newfuzzer.h only
declares it).  Per the spec, the fuzzer picks one waiter out of the
waiter list; the pick is represented by an arbitrary choice index
reduced modulo the list length. -/
def selectNotify (waiters : List MAction) (choice : Nat) (h : waiters ≠ []) :
    MAction :=
  waiters.get ⟨choice % waiters.length,
    Nat.mod_lt _ (List.length_pos.mpr h)⟩

/-- ATOMIC_NOTIFY_ONE case of process_mutex (execution.cc:424): when
the condvar_waiters_map list for curr's location is non-empty, wake
the thread of the fuzzer-chosen waiter (scheduler->wake); the waiter
list itself is not modified.  Result: (waiter list, list of woken
thread ids). -/
def process_notify_one (waiters : List MAction) (woken : List Nat)
    (choice : Nat) : List MAction × List Nat :=
  if h : waiters ≠ [] then
    (waiters, woken ++ [(selectNotify waiters choice h).tid])
  else
    (waiters, woken)

/-! ## insertIntoActionList (execution.cc:1209) -/

/-- The backward walk of insertIntoActionList, expressed on the
reversed list (head = most recent element): at the first element whose
seq number matches, insert act right after it (right before it in the
reversed representation); if no element matches, insert nothing. -/
def insertIntoRev (act : MAction) : List MAction → List MAction
  | [] => []
  | x :: xs =>
    if x.seq = act.seq then act :: x :: xs else x :: insertIntoRev act xs

/-- insertIntoActionList(list, act) (execution.cc:1209): if the list is
empty or its last element has act's seq number, push_back; otherwise
walk from the end towards the front and insert act after the first
element found whose seq number equals act's; if none matches, the list
is left unchanged. -/
def insertIntoActionList (list : List MAction) (act : MAction) : List MAction :=
  match list.getLast? with
  | none => list ++ [act]
  | some lastAct =>
    if lastAct.seq = act.seq then list ++ [act]
    else (insertIntoRev act list.reverse).reverse

/-! ## build_may_read_from (execution.cc:1427) -/

/-- The seq-cst admission test of build_may_read_from
(execution.cc:1451-1455): `allow_read` is cleared exactly when curr is
seq-cst, act is seq-cst or happens-before the recorded last seq-cst
write, and act is not that last seq-cst write itself.  `hb` is
ModelAction::happens_before; `last_sc_write` carries the value of the
local variable of the same name. -/
def allow_read_sc (hb : MAction → MAction → Bool) (curr act : MAction)
    (last_sc_write : Option MAction) : Bool :=
  !(curr.isSeqcst
    && (act.isSeqcst
        || (match last_sc_write with
            | some lsc => hb act lsc
            | none => false))
    && (match last_sc_write with
        | some lsc => !(act.aid = lsc.aid)
        | none => true))

/-- The RMW admission test of build_may_read_from
(execution.cc:1457-1469): for an RMW-read curr, unless it is a CAS
whose expected value differs from act's value under valequals (a
failing CAS is fine), act is excluded when the MO graph already
records an RMW reading from act.  `secondRMW act` stands for
`getNode_noCreate(act) != NULL && node->getRMW() != NULL`. -/
def allow_read_rmw (secondRMW : MAction → Bool) (curr act : MAction) : Bool :=
  if curr.isRMWR then
    if !curr.isRMWRCas
        || (valequals curr.value act.value curr.size).getD false then
      !(secondRMW act)
    else
      true
  else
    true

/-- One thread's walk of build_may_read_from (execution.cc:1445-1479),
given the list newest-first: skip curr, admit act when both admission
tests pass, and stop after the first act that happens-before curr. -/
def bmrf_walk (hb : MAction → MAction → Bool) (secondRMW : MAction → Bool)
    (curr : MAction) (last_sc_write : Option MAction) :
    List MAction → List MAction
  | [] => []
  | act :: rest =>
    if act.aid = curr.aid then bmrf_walk hb secondRMW curr last_sc_write rest
    else
      let keep : List MAction :=
        if allow_read_sc hb curr act last_sc_write
            && allow_read_rmw secondRMW curr act then [act] else []
      if hb act curr then keep
      else keep ++ bmrf_walk hb secondRMW curr last_sc_write rest

/-- The set of actions that the walk of build_may_read_from actually
examines for admission (execution.cc:1445-1479, admission tests
removed): every action of the newest-first list other than curr, up to
and including the first one that happens-before curr. -/
def bmrf_walked (hb : MAction → MAction → Bool) (curr : MAction) :
    List MAction → List MAction
  | [] => []
  | act :: rest =>
    if act.aid = curr.aid then bmrf_walked hb curr rest
    else if hb act curr then [act]
    else act :: bmrf_walked hb curr rest

/-- ModelExecution::build_may_read_from (execution.cc:1427): iterate
over the per-thread write lists of obj_wr_thrd_map for curr's
location, newest action first inside each thread (the lists are stored
oldest-first, so each walk runs over the list reversed), collecting
rf_set.  `objLastSC` is obj_last_sc_map at curr's location;
last_sc_write is only consulted when curr is seq-cst, mirroring the
guarded call to get_last_seq_cst_write. -/
def build_may_read_from (hb : MAction → MAction → Bool)
    (secondRMW : MAction → Bool) (objLastSC : Option MAction) (curr : MAction)
    (thrd_lists : List (List MAction)) : List MAction :=
  let last_sc_write : Option MAction := if curr.isSeqcst then objLastSC else none
  thrd_lists.foldl
    (fun acc list => acc ++ bmrf_walk hb secondRMW curr last_sc_write list.reverse)
    []

/-- Modelled from the spec: the admission condition that the spec text
states for build_may_read_from ("included iff the read is not seq-cst,
OR w is itself seq-cst, OR the last-sc-write exists and w
happens-before it — but the last-sc-write itself is always
admissible"), to be compared with allow_read_sc from the source. -/
def allow_read_sc_claimed (hb : MAction → MAction → Bool) (curr act : MAction)
    (last_sc_write : Option MAction) : Bool :=
  !curr.isSeqcst
  || act.isSeqcst
  || (match last_sc_write with
      | some lsc => hb act lsc || act.aid = lsc.aid
      | none => false)

/-! ## process_read (execution.cc:284) and its caller (execution.cc:722) -/

/-- The slice of execution state that the read path of
check_current_action touches: the MO-graph edges added so far (as
pairs of aids), curr's rf link and clock vector, the acting thread's
return value, the tail of obj_thrd_map for curr's location and thread
(for the canprune pop_back), the global assert flag (priv->asserted)
and the action trace. -/
structure ReadState where
  moEdges : List (Nat × Nat)
  currRF : Option Nat
  currCV : CVec
  retval : Option Nat
  objThrdList : List MAction
  asserted : Bool
  trace : List MAction

/-- The candidate-removal step of process_read (execution.cc:326-327):
overwrite slot index with the vector's back element and pop_back. -/
def swapRemove (l : List MAction) (i : Nat) : List MAction :=
  match l.getLast? with
  | none => []
  | some back => (l.set i back).dropLast

/-- ModelExecution::read_from (execution.cc:627): set the rf link; for
an acquire read, merge the release clock vector computed by
get_hb_from_write into the reader's clock vector unless it is NULL.
`ghb` stands for get_hb_from_write (execution.cc:1057), consumed here
only through its result. -/
def read_from_upd (ghb : MAction → Option CVec) (curr rf : MAction)
    (s : ReadState) : ReadState :=
  let s1 : ReadState := { s with currRF := some rf.aid }
  if curr.isAcquire then
    match ghb rf with
    | none => s1
    | some cv => { s1 with currCV := cvMerge s1.currCV cv }
  else s1

/-- The rf-choice loop of process_read (execution.cc:303-328), with the
fuzzer's selectWrite (`sw`, an index into rf_set or -1) and
r_modification_order (`rmo`; none stands for a false return, some
(priorset, canprune) for a true return together with the data it
passed back) consumed through their results.  The loop runs with
fuel; each rejected candidate shrinks rf_set by one, so
rf_set.length + 1 units of fuel always suffice (an empty rf_set can
only produce an in-range index never, so the fuel-0 arm is dead under
a fuzzer that answers -1 or an in-range index). -/
def process_read_loop (sw : MAction → List MAction → Int)
    (rmo : MAction → MAction → Option (List MAction × Bool))
    (ghb : MAction → Option CVec) (curr : MAction) :
    Nat → List MAction → ReadState → Bool × ReadState
  | 0, _, s => (false, s)
  | n + 1, rf_set, s =>
    let index := sw curr rf_set
    if index = -1 then (false, s)
    else
      match rf_set.get? index.toNat with
      | none => (false, s)
      | some rf =>
        match rmo curr rf with
        | some (priorset, canprune) =>
          let s1 : ReadState :=
            { s with moEdges :=
                s.moEdges ++ priorset.map (fun a => (a.aid, rf.aid)) }
          let s2 := read_from_upd ghb curr rf s1
          let s3 : ReadState := { s2 with retval := some rf.value }
          let s4 : ReadState :=
            if canprune && (curr.typ == ActionType.atomicRead) then
              { s3 with objThrdList := s3.objThrdList.dropLast }
            else s3
          (true, s4)
        | none =>
          process_read_loop sw rmo ghb curr n (swapRemove rf_set index.toNat) s

/-- ModelExecution::process_read (execution.cc:284): when the location
has a pending non-atomic store, convert it and push it onto rf_set
(`nonatomic` carries the converted action, or none when
hasNonAtomicStore is false), then run the rf-choice loop. -/
def process_read (sw : MAction → List MAction → Int)
    (rmo : MAction → MAction → Option (List MAction × Bool))
    (ghb : MAction → Option CVec) (curr : MAction) (nonatomic : Option MAction)
    (rf_set : List MAction) (s : ReadState) : Bool × ReadState :=
  let rf_set1 := rf_set ++ nonatomic.toList
  process_read_loop sw rmo ghb curr (rf_set1.length + 1) rf_set1 s

/-- The read path of ModelExecution::check_current_action
(execution.cc:722-736) for a plain (non-RMW-commit) read: call
process_read and discard its Boolean result, then add the action to
the lists (add_action_to_lists appends it to action_trace).  No
statement on this path calls set_assert, so priv->asserted is carried
through unchanged. -/
def check_current_action_read (sw : MAction → List MAction → Int)
    (rmo : MAction → MAction → Option (List MAction × Bool))
    (ghb : MAction → Option CVec) (curr : MAction) (nonatomic : Option MAction)
    (rf_set : List MAction) (s : ReadState) : ReadState :=
  let s1 := (process_read sw rmo ghb curr nonatomic rf_set s).2
  { s1 with trace := s1.trace ++ [curr] }

/-! ## w_modification_order (execution.cc:925) -/

/-- The slice of state w_modification_order touches: obj_last_sc_map
at curr's location and the MO-graph edges. -/
structure WState where
  lastSC : Option MAction
  edges : List (Nat × Nat)

/-- One thread's walk of w_modification_order (execution.cc:957-1006),
input list newest-first.  `fb` is the seq number of
last_sc_fence_thread_before for this thread (none when that local is
NULL); `*act < *fence` compares seq numbers.  Collected elements are
the sources of the MO edges towards curr that addEdges will add; a
read contributes its (possibly NULL) rf, hence the Option. -/
def w_mo_walk (hb : MAction → MAction → Bool) (curr : MAction)
    (fb : Option Nat) : List MAction → List (Option Nat)
  | [] => []
  | act :: rest =>
    if act.aid = curr.aid then
      if curr.isRMW then
        if curr.readsFrom.isSome then []
        else w_mo_walk hb curr fb rest
      else w_mo_walk hb curr fb rest
    else if (match fb with
             | some f => act.isWrite && decide (act.seq < f)
             | none => false) then
      [some act.aid]
    else if hb act curr then
      if act.isWrite then [some act.aid]
      else if act.isRead then [act.readsFrom]
      else []
    else w_mo_walk hb curr fb rest

/-- The outer thread loop of w_modification_order (execution.cc:948):
thread index i walks its own list (stored oldest-first, walked
reversed) under its own last_sc_fence_thread_before value `fbs i`. -/
def w_mo_threads (hb : MAction → MAction → Bool) (curr : MAction)
    (fbs : Nat → Option Nat) : Nat → List (List MAction) → List (Option Nat)
  | _, [] => []
  | i, l :: ls =>
    w_mo_walk hb curr (fbs i) l.reverse ++ w_mo_threads hb curr fbs (i + 1) ls

/-- ModelExecution::w_modification_order (execution.cc:925): for a
seq-cst write, first push the recorded last seq-cst write (if any)
onto the edge set and update obj_last_sc_map to curr; then collect
per-thread edge sources; finally addEdges installs an edge from every
collected non-NULL source to curr. -/
def w_modification_order (hb : MAction → MAction → Bool)
    (fbs : Nat → Option Nat) (thrd_lists : List (List MAction))
    (curr : MAction) (s : WState) : WState :=
  let scpart : List (Option Nat) × Option MAction :=
    if curr.isSeqcst then
      ((match s.lastSC with
        | some lsc => [some lsc.aid]
        | none => []), some curr)
    else ([], s.lastSC)
  let edgeset := scpart.1 ++ w_mo_threads hb curr fbs 0 thrd_lists
  { lastSC := scpart.2,
    edges := s.edges ++ (edgeset.filterMap id).map (fun a => (a, curr.aid)) }

/-- One processed write at the fixed location: the action together
with the fence context and the per-thread action lists the call sees
(both evolve between calls and are therefore per-step inputs). -/
structure WStep where
  curr : MAction
  fbs : Nat → Option Nat
  thrd_lists : List (List MAction)

/-- A sequence of w_modification_order calls at one location, in
program order of the writes, threading obj_last_sc_map and the MO
graph through. -/
def runWrites (hb : MAction → MAction → Bool) (steps : List WStep)
    (s : WState) : WState :=
  steps.foldl
    (fun st stp => w_modification_order hb stp.fbs stp.thrd_lists stp.curr st) s

/-! ## Supporting lemmas -/

theorem is_deadlocked_loop_spec (ts : List ThreadEntry) : ∀ b : Bool,
    is_deadlocked_loop ts b = true ↔
      ((∀ t ∈ ts, t.enabled = false) ∧
        (b = true ∨ ∃ t ∈ ts, t.isModel = false ∧ t.hasPending = true)) := by
  induction ts with
  | nil => intro b; simp [is_deadlocked_loop]
  | cons t ts ih =>
    intro b
    cases ht : t.enabled with
    | true =>
      simp only [is_deadlocked_loop, ht, if_true]
      constructor
      · intro h; exact absurd h (by simp)
      · rintro ⟨hall, _⟩
        have h := hall t (List.mem_cons_self t ts)
        rw [ht] at h; exact absurd h (by simp)
    | false =>
      simp only [is_deadlocked_loop, ht, Bool.false_eq_true, if_false, ih,
        Bool.or_eq_true, Bool.and_eq_true, Bool.not_eq_true', List.mem_cons]
      constructor
      · rintro ⟨hall, hor⟩
        constructor
        · intro x hx
          rcases hx with rfl | hx
          · exact ht
          · exact hall x hx
        · rcases hor with (hb | ⟨hm, hp⟩) | ⟨x, hx, hxm, hxp⟩
          · exact Or.inl hb
          · exact Or.inr ⟨t, Or.inl rfl, hm, hp⟩
          · exact Or.inr ⟨x, Or.inr hx, hxm, hxp⟩
      · rintro ⟨hall, hb | ⟨x, hx, hxm, hxp⟩⟩
        · exact ⟨fun y hy => hall y (Or.inr hy), Or.inl (Or.inl hb)⟩
        · rcases hx with rfl | hx
          · exact ⟨fun y hy => hall y (Or.inr hy), Or.inl (Or.inr ⟨hxm, hxp⟩)⟩
          · exact ⟨fun y hy => hall y (Or.inr hy), Or.inr ⟨x, hx, hxm, hxp⟩⟩

theorem insertIntoRev_no_match (act : MAction) (l : List MAction)
    (h : ∀ x ∈ l, x.seq ≠ act.seq) : insertIntoRev act l = l := by
  induction l with
  | nil => rfl
  | cons x xs ih =>
    rw [insertIntoRev, if_neg (h x (List.mem_cons_self x xs)),
      ih fun y hy => h y (List.mem_cons_of_mem x hy)]

theorem insertIntoRev_found (act m : MAction) (P Q : List MAction)
    (hP : ∀ x ∈ P, x.seq ≠ act.seq) (hm : m.seq = act.seq) :
    insertIntoRev act (P ++ m :: Q) = P ++ act :: m :: Q := by
  induction P with
  | nil => simp [insertIntoRev, hm]
  | cons x xs ih =>
    rw [List.cons_append, insertIntoRev,
      if_neg (hP x (List.mem_cons_self x xs)),
      ih fun y hy => hP y (List.mem_cons_of_mem x hy), List.cons_append]

theorem getLast?_app_cons (A : List MAction) (m : MAction) (B : List MAction) :
    (A ++ m :: B).getLast? = some ((m :: B).getLast (by simp)) := by
  rw [List.getLast?_append, List.getLast?_eq_getLast (m :: B) (by simp)]
  rfl

/-! ## Claim theorems -/

/-- C7: valequals(val1, val2, size) returns true exactly when val1 and
val2 agree on their low size*8 bits, for every size in 1/2/4/8; every
other size triggers the internal-invariant assertion (modelled as
none) rather than returning a comparison. -/
theorem claim_C7_valequals (v1 v2 size : Nat) (h1 : v1 < 2 ^ 64)
    (h2 : v2 < 2 ^ 64) :
    (size = 1 ∨ size = 2 ∨ size = 4 ∨ size = 8 →
      valequals v1 v2 size =
        some (decide (v1 % 2 ^ (8 * size) = v2 % 2 ^ (8 * size)))) ∧
    (¬(size = 1 ∨ size = 2 ∨ size = 4 ∨ size = 8) →
      valequals v1 v2 size = none) := by
  constructor
  · rintro (rfl | rfl | rfl | rfl) <;> (simp [valequals]; try omega)
  · intro h
    push_neg at h
    obtain ⟨n1, n2, n4, n8⟩ := h
    simp [valequals, n1, n2, n4, n8]

theorem claim_C7_valequals_witness :
    ((4 : Nat) = 1 ∨ (4 : Nat) = 2 ∨ (4 : Nat) = 4 ∨ (4 : Nat) = 8) ∧
    valequals (2 ^ 32 + 7) 7 4 = some (decide ((2 ^ 32 + 7) % 2 ^ (8 * 4) = 7 % 2 ^ (8 * 4))) ∧
    valequals (2 ^ 32 + 7) 7 3 = none := by
  refine ⟨by decide, ?_, ?_⟩
  · exact (claim_C7_valequals (2 ^ 32 + 7) 7 4 (by norm_num) (by norm_num)).1
      (by decide)
  · exact (claim_C7_valequals (2 ^ 32 + 7) 7 3 (by norm_num) (by norm_num)).2
      (by decide)

/-- C5: is_deadlocked() returns true exactly when no thread is enabled
and some non-model thread has a pending action; in particular it is
false whenever some thread is enabled. -/
theorem claim_C5_is_deadlocked (threads : List ThreadEntry) :
    is_deadlocked threads = true ↔
      ((∀ t ∈ threads, t.enabled = false) ∧
        ∃ t ∈ threads, t.isModel = false ∧ t.hasPending = true) := by
  rw [is_deadlocked, is_deadlocked_loop_spec]
  simp

/-- C10: get_thread, get_last_action and get_last_fence_release are
total at the public interface: a thread id beyond the corresponding
table yields NULL rather than failing. -/
theorem claim_C10_unknown_thread_lookups (tm : List Nat)
    (la fr : List (Option MAction)) (t1 t2 t3 : Nat)
    (h1 : tm.length ≤ t1) (h2 : la.length ≤ t2) (h3 : fr.length ≤ t3) :
    get_thread tm t1 = none ∧ get_last_action la t2 = none ∧
      get_last_fence_release fr t3 = none := by
  refine ⟨?_, ?_, ?_⟩
  · simp [get_thread, Nat.not_lt.mpr h1]
  · simp [get_last_action, Nat.not_lt.mpr h2]
  · simp [get_last_fence_release, Nat.not_lt.mpr h3]

theorem claim_C10_unknown_thread_lookups_witness :
    get_thread [] 3 = none ∧ get_last_action [] 3 = none ∧
      get_last_fence_release [] 3 = none :=
  claim_C10_unknown_thread_lookups [] [] [] 3 3 3 (by simp) (by simp) (by simp)

/-- C6: for ATOMIC_TRYLOCK the return value is 1 exactly when the
mutex is free; on a taken lock the return value is 0 and nothing else
of the lock/CV state changes; on a free lock the owner becomes the
acting thread and, when a last unlock exists, its clock vector is
merged into the acting action's. -/
theorem claim_C6_trylock (curr : MAction) (luCV : Option CVec)
    (s : MutexStepState) :
    ((process_mutex_trylock curr luCV s).retval = 1 ↔ s.locked = none) ∧
    (s.locked ≠ none →
      process_mutex_trylock curr luCV s =
        { s with retval := 0, tryLockFlag := some false }) ∧
    (s.locked = none →
      (process_mutex_trylock curr luCV s).locked = some curr.tid ∧
      (luCV = none → (process_mutex_trylock curr luCV s).currCV = s.currCV) ∧
      ∀ ucv, luCV = some ucv →
        (process_mutex_trylock curr luCV s).currCV = cvMerge s.currCV ucv) := by
  refine ⟨?_, ?_, ?_⟩
  · cases hl : s.locked with
    | none => cases luCV <;> simp [process_mutex_trylock, hl]
    | some o => simp [process_mutex_trylock, hl]
  · intro h
    cases hl : s.locked with
    | none => exact absurd hl h
    | some o => simp [process_mutex_trylock, hl]
  · intro hl
    cases hu : luCV with
    | none => simp [process_mutex_trylock, hl, hu]
    | some ucv => simp [process_mutex_trylock, hl, hu]

theorem claim_C6_trylock_witness :
    let w : MAction :=
      ⟨9, 4, 7, 0, 8, ActionType.atomicTrylock, false, false, false, false,
        false, false, false, none⟩
    let taken : MutexStepState := ⟨some 2, [5, 1], 7, none⟩
    let free : MutexStepState := ⟨none, [5, 1], 7, none⟩
    (process_mutex_trylock w (some [0, 3, 4]) taken =
      { taken with retval := 0, tryLockFlag := some false }) ∧
    (process_mutex_trylock w (some [0, 3, 4]) free).locked = some 4 ∧
    (process_mutex_trylock w (some [0, 3, 4]) free).currCV = [5, 3, 4] := by
  intro w taken free
  refine ⟨(claim_C6_trylock w (some [0, 3, 4]) taken).2.1 (by simp), ?_, ?_⟩
  · exact ((claim_C6_trylock w (some [0, 3, 4]) free).2.2 rfl).1
  · have h := ((claim_C6_trylock w (some [0, 3, 4]) free).2.2 rfl).2.2 [0, 3, 4] rfl
    rw [h]; decide

/-- C8: ATOMIC_NOTIFY_ONE with a non-empty waiter list wakes exactly
the one fuzzer-chosen waiter's thread (which belongs to the list) and
leaves the condvar_waiters_map list unchanged; with an empty waiter
list it changes nothing. -/
theorem claim_C8_notify_one (waiters : List MAction) (woken : List Nat)
    (choice : Nat) :
    (∀ h : waiters ≠ [],
      process_notify_one waiters woken choice =
        (waiters, woken ++ [(selectNotify waiters choice h).tid]) ∧
      selectNotify waiters choice h ∈ waiters) ∧
    (waiters = [] → process_notify_one waiters woken choice = (waiters, woken)) := by
  constructor
  · intro h
    exact ⟨by simp [process_notify_one, h], List.get_mem _ _ _⟩
  · rintro rfl
    simp [process_notify_one]

theorem claim_C8_notify_one_witness :
    let w : MAction :=
      ⟨3, 6, 2, 0, 8, ActionType.atomicWait, false, false, false, false,
        false, false, false, none⟩
    process_notify_one [w] [9] 5 = ([w], [9, 6]) ∧
      process_notify_one [] [9] 5 = ([], [9]) := by
  intro w
  refine ⟨?_, (claim_C8_notify_one [] [9] 5).2 rfl⟩
  have h := ((claim_C8_notify_one [w] [9] 5).1 (by simp)).1
  rw [h]; decide

/-- C9: insertIntoActionList appends to an empty list; when an element
with act's seq number exists it inserts act directly after the element
with that seq number nearest the tail (so same-seq actions end up in
arrival order); when the list is non-empty and no element matches, it
does nothing. -/
theorem claim_C9_insertIntoActionList (act m : MAction) (A B : List MAction) :
    (insertIntoActionList [] act = [act]) ∧
    (m.seq = act.seq → (∀ b ∈ B, b.seq ≠ act.seq) →
      insertIntoActionList (A ++ m :: B) act = A ++ m :: act :: B) ∧
    (∀ l : List MAction, l ≠ [] → (∀ x ∈ l, x.seq ≠ act.seq) →
      insertIntoActionList l act = l) := by
  refine ⟨rfl, ?_, ?_⟩
  · intro hm hB
    cases B with
    | nil =>
      have hlast : (A ++ [m]).getLast? = some m := List.getLast?_concat A
      simp only [insertIntoActionList, hlast, hm, if_pos]
      simp
    | cons b bs =>
      have hlast := getLast?_app_cons A m (b :: bs)
      have hmem2 : (m :: b :: bs).getLast (by simp) ∈ b :: bs := by
        have hg : (m :: b :: bs).getLast (by simp) = (b :: bs).getLast (by simp) :=
          List.getLast_cons (by simp)
        rw [hg]; exact List.getLast_mem _
      have hne : ((m :: b :: bs).getLast (by simp)).seq ≠ act.seq := hB _ hmem2
      rw [insertIntoActionList, hlast]
      simp only [if_neg hne]
      rw [show (A ++ m :: b :: bs).reverse = (b :: bs).reverse ++ m :: A.reverse
        from by simp]
      rw [insertIntoRev_found act m ((b :: bs).reverse) A.reverse
        (fun y hy => hB y (List.mem_reverse.mp hy)) hm]
      simp
  · intro l hl hno
    obtain ⟨lst, hlst⟩ : ∃ lst, l.getLast? = some lst := by
      cases h : l.getLast? with
      | none => exact absurd (List.getLast?_eq_none_iff.mp h) hl
      | some x => exact ⟨x, rfl⟩
    have hlstmem : lst ∈ l :=
      List.mem_of_mem_getLast? (by rw [hlst]; exact Option.mem_some_iff.mpr rfl)
    rw [insertIntoActionList, hlst]
    simp only [if_neg (hno lst hlstmem)]
    rw [insertIntoRev_no_match act l.reverse fun y hy =>
      hno y (List.mem_reverse.mp hy)]
    simp

theorem claim_C9_insertIntoActionList_witness :
    let mkw : Nat → Nat → MAction := fun i sq =>
      ⟨i, 0, sq, 0, 8, ActionType.atomicWrite, false, false, true, false,
        false, false, false, none⟩
    (insertIntoActionList [mkw 1 1, mkw 2 5, mkw 3 7] (mkw 4 5) =
      [mkw 1 1, mkw 2 5, mkw 4 5, mkw 3 7]) ∧
    (insertIntoActionList [mkw 1 1, mkw 3 7] (mkw 4 5) = [mkw 1 1, mkw 3 7]) := by
  intro mkw
  constructor
  · have h := (claim_C9_insertIntoActionList (mkw 4 5) (mkw 2 5) [mkw 1 1]
      [mkw 3 7]).2.1 (by decide) (by decide)
    simpa using h
  · exact (claim_C9_insertIntoActionList (mkw 4 5) (mkw 2 5) [] []).2.2
      [mkw 1 1, mkw 3 7] (by simp) (by decide)

/-! ## Supporting lemmas for the rf-choice loop (C3) -/

theorem set_take_drop {α : Type _} (l : List α) : ∀ i, i < l.length → ∀ b : α,
    l.set i b = l.take i ++ b :: l.drop (i + 1) := by
  induction l with
  | nil => intro i h; simp at h
  | cons a as ih =>
    intro i h b
    cases i with
    | zero => simp
    | succ j =>
      simp only [List.set_cons_succ, List.take_succ_cons, List.drop_succ_cons,
        List.cons_append]
      rw [ih j (by simpa using h) b]

theorem eraseIdx_take_drop {α : Type _} (l : List α) : ∀ i, i < l.length →
    l.eraseIdx i = l.take i ++ l.drop (i + 1) := by
  induction l with
  | nil => intro i h; simp at h
  | cons a as ih =>
    intro i h
    cases i with
    | zero => simp
    | succ j =>
      simp only [List.eraseIdx_cons_succ, List.take_succ_cons,
        List.drop_succ_cons, List.cons_append]
      rw [ih j (by simpa using h)]

theorem eraseIdx_append_left {α : Type _} (F G : List α) : ∀ i, i < F.length →
    (F ++ G).eraseIdx i = F.eraseIdx i ++ G := by
  induction F with
  | nil => intro i h; simp at h
  | cons a as ih =>
    intro i h
    cases i with
    | zero => simp
    | succ j =>
      simp only [List.cons_append, List.eraseIdx_cons_succ]
      rw [ih j (by simpa using h)]

theorem eraseIdx_append_right_zero {α : Type _} (F : List α) (b : α) :
    (F ++ [b]).eraseIdx F.length = F := by
  induction F with
  | nil => rfl
  | cons a as ih =>
    simp only [List.cons_append, List.length_cons, List.eraseIdx_cons_succ]
    rw [ih]

/-- The swap-with-last-and-pop removal of process_read keeps exactly
the other elements of the vector: its result is a permutation of the
list with index i erased. -/
theorem swapRemove_perm (l : List MAction) (i : Nat) (h : i < l.length) :
    (swapRemove l i).Perm (l.eraseIdx i) := by
  rcases List.eq_nil_or_concat l with rfl | ⟨F, b, rfl⟩
  · simp at h
  · rw [List.concat_eq_append] at h ⊢
    rw [swapRemove, List.getLast?_concat]
    show (((F ++ [b]).set i b).dropLast).Perm _
    by_cases hi : i < F.length
    · rw [List.set_append, if_pos hi, List.dropLast_concat,
        eraseIdx_append_left F [b] i hi]
      rw [set_take_drop F i hi b, eraseIdx_take_drop F i hi]
      refine (List.perm_middle).trans ?_
      exact (List.perm_append_singleton b _).symm
    · have hi' : i = F.length := by
        simp only [List.length_append, List.length_singleton] at h; omega
      subst hi'
      rw [List.set_append, if_neg hi, Nat.sub_self]
      simp only [List.set_cons_zero, List.dropLast_concat]
      rw [eraseIdx_append_right_zero]

/-- One accepted iteration of the rf-choice loop, with the resulting
state written out field by field. -/
theorem process_read_loop_commit (sw : MAction → List MAction → Int)
    (rmo : MAction → MAction → Option (List MAction × Bool))
    (ghb : MAction → Option CVec) (curr rf : MAction) (n : Nat)
    (rf_set : List MAction) (s : ReadState) (idx : Int)
    (priorset : List MAction) (canprune : Bool)
    (h1 : sw curr rf_set = idx) (h2 : idx ≠ -1)
    (h3 : rf_set.get? idx.toNat = some rf)
    (hr : rmo curr rf = some (priorset, canprune)) :
    process_read_loop sw rmo ghb curr (n + 1) rf_set s =
      (true,
        { moEdges := s.moEdges ++ priorset.map (fun a => (a.aid, rf.aid)),
          currRF := some rf.aid,
          currCV :=
            if curr.isAcquire then
              match ghb rf with
              | none => s.currCV
              | some cv => cvMerge s.currCV cv
            else s.currCV,
          retval := some rf.value,
          objThrdList :=
            if canprune && (curr.typ == ActionType.atomicRead) then
              s.objThrdList.dropLast
            else s.objThrdList,
          asserted := s.asserted,
          trace := s.trace }) := by
  rw [process_read_loop]
  simp only [h1, if_neg h2, h3, hr]
  cases hacq : curr.isAcquire <;> cases hghb : ghb rf <;>
    cases hcp : (canprune && (curr.typ == ActionType.atomicRead)) <;>
      simp [read_from_upd, hacq, hghb, hcp]

/-- C3: in the rf-choice loop of process_read, a candidate rejected by
r_modification_order is removed from rf_set by swapping it with the
last element and popping (keeping exactly the other candidates) and
the loop retries on the reduced set; an accepted candidate commits:
every action of priorset gains an MO edge towards the chosen write rf,
the read's rf link is set to rf, and for an acquire read the release
clock vector computed from rf (get_hb_from_write) is merged into the
reader's clock vector (which otherwise is unchanged). -/
theorem claim_C3_rf_choice_loop (sw : MAction → List MAction → Int)
    (rmo : MAction → MAction → Option (List MAction × Bool))
    (ghb : MAction → Option CVec) (curr rf : MAction) (n : Nat)
    (rf_set : List MAction) (s : ReadState) (idx : Int)
    (h1 : sw curr rf_set = idx) (h2 : idx ≠ -1)
    (h3 : rf_set.get? idx.toNat = some rf) :
    (rmo curr rf = none →
      process_read_loop sw rmo ghb curr (n + 1) rf_set s =
        process_read_loop sw rmo ghb curr n (swapRemove rf_set idx.toNat) s ∧
      (swapRemove rf_set idx.toNat).Perm (rf_set.eraseIdx idx.toNat)) ∧
    (∀ priorset canprune, rmo curr rf = some (priorset, canprune) →
      (process_read_loop sw rmo ghb curr (n + 1) rf_set s).1 = true ∧
      (process_read_loop sw rmo ghb curr (n + 1) rf_set s).2.moEdges =
        s.moEdges ++ priorset.map (fun a => (a.aid, rf.aid)) ∧
      (process_read_loop sw rmo ghb curr (n + 1) rf_set s).2.currRF =
        some rf.aid ∧
      (curr.isAcquire = true → ∀ cv, ghb rf = some cv →
        (process_read_loop sw rmo ghb curr (n + 1) rf_set s).2.currCV =
          cvMerge s.currCV cv) ∧
      (curr.isAcquire = false →
        (process_read_loop sw rmo ghb curr (n + 1) rf_set s).2.currCV =
          s.currCV)) := by
  constructor
  · intro hr
    constructor
    · rw [process_read_loop]
      simp only [h1, if_neg h2, h3, hr]
    · exact swapRemove_perm rf_set idx.toNat (List.get?_eq_some.mp h3).1
  · intro priorset canprune hr
    rw [process_read_loop_commit sw rmo ghb curr rf n rf_set s idx priorset
      canprune h1 h2 h3 hr]
    refine ⟨rfl, rfl, rfl, ?_, ?_⟩
    · intro hacq cv hcv
      simp [hacq, hcv]
    · intro hacq
      simp [hacq]

theorem claim_C3_rf_choice_loop_witness :
    let rd : MAction :=
      ⟨10, 0, 3, 0, 4, ActionType.atomicRead, false, true, false, true, false,
        false, false, none⟩
    let wA : MAction :=
      ⟨1, 1, 1, 7, 4, ActionType.atomicWrite, false, false, true, false, false,
        false, false, none⟩
    let wB : MAction :=
      ⟨2, 1, 2, 9, 4, ActionType.atomicWrite, false, false, true, false, false,
        false, false, none⟩
    let s0 : ReadState := ⟨[], none, [0], none, [], false, []⟩
    let swZ : MAction → List MAction → Int := fun _ _ => 0
    let rmoRej : MAction → MAction → Option (List MAction × Bool) :=
      fun _ _ => none
    let rmoAcc : MAction → MAction → Option (List MAction × Bool) :=
      fun _ _ => some ([wB], false)
    let ghbN : MAction → Option CVec := fun _ => some [5, 5]
    ((0 : Int) ≠ -1) ∧
    (process_read_loop swZ rmoRej ghbN rd 1 [wA, wB] s0 =
      process_read_loop swZ rmoRej ghbN rd 0 (swapRemove [wA, wB] 0) s0) ∧
    ((swapRemove [wA, wB] 0).Perm ([wA, wB].eraseIdx 0)) ∧
    ((process_read_loop swZ rmoAcc ghbN rd 1 [wA, wB] s0).1 = true) ∧
    ((process_read_loop swZ rmoAcc ghbN rd 1 [wA, wB] s0).2.currCV =
      cvMerge s0.currCV [5, 5]) := by
  intro rd wA wB s0 swZ rmoRej rmoAcc ghbN
  refine ⟨by decide, ?_, ?_, ?_, ?_⟩
  · exact ((claim_C3_rf_choice_loop swZ rmoRej ghbN rd wA 0 [wA, wB] s0 0 rfl
      (by decide) rfl).1 rfl).1
  · exact ((claim_C3_rf_choice_loop swZ rmoRej ghbN rd wA 0 [wA, wB] s0 0 rfl
      (by decide) rfl).1 rfl).2
  · exact (((claim_C3_rf_choice_loop swZ rmoAcc ghbN rd wA 0 [wA, wB] s0 0 rfl
      (by decide) rfl).2) [wB] false rfl).1
  · exact (((claim_C3_rf_choice_loop swZ rmoAcc ghbN rd wA 0 [wA, wB] s0 0 rfl
      (by decide) rfl).2) [wB] false rfl).2.2.2.1 rfl [5, 5] rfl

/-- C1 counterexample: a concrete read step in which selectWrite
answers -1.  process_read returns false, and after the full
check_current_action read path the assert flag is still clear and
the action was appended to the trace — the execution is neither
marked infeasible (set_assert) nor aborted, contradicting the claim
that the InfeasibleRead outcome sets the assert flag. -/
theorem claim_C1_counterexample :
    let rd : MAction :=
      ⟨10, 0, 3, 0, 4, ActionType.atomicRead, false, false, false, true, false,
        false, false, none⟩
    let w : MAction :=
      ⟨1, 1, 1, 7, 4, ActionType.atomicWrite, false, false, true, false, false,
        false, false, none⟩
    let s0 : ReadState := ⟨[], none, [], none, [], false, []⟩
    (process_read (fun _ _ => -1) (fun _ _ => none) (fun _ => none) rd none
      [w] s0 = (false, s0)) ∧
    (check_current_action_read (fun _ _ => -1) (fun _ _ => none)
      (fun _ => none) rd none [w] s0).asserted = false ∧
    (check_current_action_read (fun _ _ => -1) (fun _ _ => none)
      (fun _ => none) rd none [w] s0).trace = [rd] := by
  intro rd w s0
  exact ⟨rfl, rfl, rfl⟩

/-- C1 (amended): when selectWrite returns -1, process_read returns
false without committing an rf; check_current_action ignores that
result, still appends the action to the lists, and the assert flag is
not touched on this path (set_assert is never called here). -/
theorem claim_C1_infeasible_read (sw : MAction → List MAction → Int)
    (rmo : MAction → MAction → Option (List MAction × Bool))
    (ghb : MAction → Option CVec) (curr : MAction) (nonatomic : Option MAction)
    (rf_set : List MAction) (s : ReadState)
    (h : sw curr (rf_set ++ nonatomic.toList) = -1) :
    process_read sw rmo ghb curr nonatomic rf_set s = (false, s) ∧
    check_current_action_read sw rmo ghb curr nonatomic rf_set s =
      { s with trace := s.trace ++ [curr] } ∧
    (check_current_action_read sw rmo ghb curr nonatomic rf_set s).asserted =
      s.asserted := by
  have hp : process_read sw rmo ghb curr nonatomic rf_set s = (false, s) := by
    simp only [process_read]
    rw [process_read_loop]
    simp [h]
  refine ⟨hp, ?_, ?_⟩
  · simp [check_current_action_read, hp]
  · simp [check_current_action_read, hp]

theorem claim_C1_infeasible_read_witness :
    let rd : MAction :=
      ⟨11, 0, 4, 0, 4, ActionType.atomicRead, false, false, false, true, false,
        false, false, none⟩
    let w : MAction :=
      ⟨2, 1, 2, 8, 4, ActionType.atomicWrite, false, false, true, false, false,
        false, false, none⟩
    let s0 : ReadState := ⟨[], none, [], none, [], false, [w]⟩
    ((fun (_ : MAction) (_ : List MAction) => (-1 : Int)) rd
      ([w] ++ (none : Option MAction).toList) = -1) ∧
    (process_read (fun _ _ => -1) (fun _ _ => none) (fun _ => none) rd none
      [w] s0 = (false, s0)) ∧
    (check_current_action_read (fun _ _ => -1) (fun _ _ => none)
      (fun _ => none) rd none [w] s0).asserted = s0.asserted := by
  intro rd w s0
  refine ⟨rfl, ?_, ?_⟩
  · exact (claim_C1_infeasible_read (fun _ _ => -1) (fun _ _ => none)
      (fun _ => none) rd none [w] s0 rfl).1
  · exact (claim_C1_infeasible_read (fun _ _ => -1) (fun _ _ => none)
      (fun _ => none) rd none [w] s0 rfl).2.2

/-! ## Supporting lemmas for build_may_read_from (C2) -/

theorem bmrf_walk_mem (hb : MAction → MAction → Bool)
    (sr : MAction → Bool) (curr : MAction) (lsc : Option MAction)
    (hc : curr.isRMWR = false) (l : List MAction) (act : MAction) :
    act ∈ bmrf_walk hb sr curr lsc l ↔
      act ∈ bmrf_walked hb curr l ∧ allow_read_sc hb curr act lsc = true := by
  have hrmw : ∀ a, allow_read_rmw sr curr a = true := by
    intro a; simp [allow_read_rmw, hc]
  induction l with
  | nil => simp [bmrf_walk, bmrf_walked]
  | cons x rest ih =>
    by_cases hx : x.aid = curr.aid
    · simp only [bmrf_walk, bmrf_walked, if_pos hx]; exact ih
    · cases hhb : hb x curr with
      | true =>
        cases ha : allow_read_sc hb curr x lsc with
        | true =>
          simp only [bmrf_walk, bmrf_walked, if_neg hx, hhb, hrmw, ha,
            Bool.and_true, if_true, List.mem_singleton]
          constructor
          · rintro rfl; exact ⟨rfl, ha⟩
          · rintro ⟨rfl, _⟩; rfl
        | false =>
          simp only [bmrf_walk, bmrf_walked, if_neg hx, hhb, hrmw, ha,
            Bool.and_true, if_true, Bool.false_eq_true, if_false,
            List.not_mem_nil, false_iff, List.mem_singleton, not_and]
          rintro rfl
          rw [ha]; exact Bool.false_ne_true
      | false =>
        cases ha : allow_read_sc hb curr x lsc with
        | true =>
          simp only [bmrf_walk, bmrf_walked, if_neg hx, hhb, hrmw, ha,
            Bool.and_true, Bool.false_eq_true, if_false, if_true,
            List.singleton_append, List.mem_cons, ih]
          constructor
          · rintro (rfl | ⟨hm, hal⟩)
            · exact ⟨Or.inl rfl, ha⟩
            · exact ⟨Or.inr hm, hal⟩
          · rintro ⟨rfl | hm, hal⟩
            · exact Or.inl rfl
            · exact Or.inr ⟨hm, hal⟩
        | false =>
          simp only [bmrf_walk, bmrf_walked, if_neg hx, hhb, hrmw, ha,
            Bool.and_true, Bool.false_eq_true, if_false, List.nil_append,
            List.mem_cons, ih]
          constructor
          · rintro ⟨hm, hal⟩; exact ⟨Or.inr hm, hal⟩
          · rintro ⟨rfl | hm, hal⟩
            · rw [ha] at hal; exact absurd hal Bool.false_ne_true
            · exact ⟨hm, hal⟩

theorem allow_read_sc_charn (hb : MAction → MAction → Bool)
    (curr act : MAction) (lsc : Option MAction) :
    allow_read_sc hb curr act lsc = true ↔
      (curr.isSeqcst = false ∨
        (∃ w, lsc = some w ∧ act.aid = w.aid) ∨
        (act.isSeqcst = false ∧ ∀ w, lsc = some w → hb act w = false)) := by
  cases lsc with
  | none =>
    cases hc : curr.isSeqcst <;> cases ha : act.isSeqcst <;>
      simp [allow_read_sc, hc, ha]
  | some w =>
    cases hc : curr.isSeqcst <;> cases ha : act.isSeqcst <;>
      cases hh : hb act w <;> by_cases he : act.aid = w.aid <;>
        simp [allow_read_sc, hc, ha, hh, he]

theorem foldl_append_mem (f : List MAction → List MAction)
    (tls : List (List MAction)) :
    ∀ (acc : List MAction) (x : MAction),
      (x ∈ tls.foldl (fun a tl => a ++ f tl) acc ↔
        x ∈ acc ∨ ∃ tl ∈ tls, x ∈ f tl) := by
  induction tls with
  | nil => intro acc x; simp
  | cons t ts ih =>
    intro acc x
    rw [List.foldl_cons, ih]
    simp only [List.mem_append, List.mem_cons]
    constructor
    · rintro ((hx | hx) | ⟨tl, htl, hx⟩)
      · exact Or.inl hx
      · exact Or.inr ⟨t, Or.inl rfl, hx⟩
      · exact Or.inr ⟨tl, Or.inr htl, hx⟩
    · rintro (hx | ⟨tl, rfl | htl, hx⟩)
      · exact Or.inl (Or.inl hx)
      · exact Or.inl (Or.inr hx)
      · exact Or.inr ⟨tl, htl, hx⟩

/-- C2 counterexample: a concrete configuration refuting the claimed
admission condition.  curr is a seq-cst read, w1 and w2 are seq-cst
writes with w2 recorded as the location's last seq-cst write, and
happens-before is empty.  Because w1 is itself seq-cst the claim
admits it, but the source predicate rejects it and build_may_read_from
leaves it out of rf_set (only w2, the last seq-cst write, is
admitted). -/
theorem claim_C2_counterexample :
    let hb0 : MAction → MAction → Bool := fun _ _ => false
    let sr0 : MAction → Bool := fun _ => false
    let w1 : MAction :=
      ⟨1, 1, 1, 0, 4, ActionType.atomicWrite, true, false, true, false, false,
        false, false, none⟩
    let w2 : MAction :=
      ⟨2, 1, 2, 0, 4, ActionType.atomicWrite, true, false, true, false, false,
        false, false, none⟩
    let rd : MAction :=
      ⟨10, 0, 3, 0, 4, ActionType.atomicRead, true, false, false, true, false,
        false, false, none⟩
    allow_read_sc_claimed hb0 rd w1 (some w2) = true ∧
    allow_read_sc hb0 rd w1 (some w2) = false ∧
    w1 ∉ build_may_read_from hb0 sr0 (some w2) rd [[w1, w2]] ∧
    w2 ∈ build_may_read_from hb0 sr0 (some w2) rd [[w1, w2]] := by
  intro hb0 sr0 w1 w2 rd
  refine ⟨by decide, by decide, by decide, by decide⟩

/-- C2 (amended): in build_may_read_from a walked write w is admitted
into rf_set (ignoring the RMW clause, i.e. for a non-RMW read) exactly
when the read is not seq-cst, OR w is the recorded last seq-cst write
itself, OR w is neither seq-cst nor happens-before the recorded last
seq-cst write; so a seq-cst read excludes every other seq-cst write
and everything happening-before the last seq-cst write. -/
theorem claim_C2_sc_admission (hb : MAction → MAction → Bool)
    (sr : MAction → Bool) (ols : Option MAction) (curr act : MAction)
    (lsc : Option MAction) (l : List MAction) (tls : List (List MAction))
    (hc : curr.isRMWR = false) :
    (allow_read_sc hb curr act lsc = true ↔
      (curr.isSeqcst = false ∨
        (∃ w, lsc = some w ∧ act.aid = w.aid) ∨
        (act.isSeqcst = false ∧ ∀ w, lsc = some w → hb act w = false))) ∧
    (act ∈ bmrf_walk hb sr curr lsc l ↔
      act ∈ bmrf_walked hb curr l ∧ allow_read_sc hb curr act lsc = true) ∧
    (act ∈ build_may_read_from hb sr ols curr tls ↔
      ∃ tl ∈ tls, act ∈ bmrf_walked hb curr tl.reverse ∧
        allow_read_sc hb curr act
          (if curr.isSeqcst then ols else none) = true) := by
  refine ⟨allow_read_sc_charn hb curr act lsc,
    bmrf_walk_mem hb sr curr lsc hc l act, ?_⟩
  simp only [build_may_read_from]
  rw [foldl_append_mem
    (fun tl => bmrf_walk hb sr curr
      (if curr.isSeqcst then ols else none) tl.reverse) tls [] act]
  simp only [List.not_mem_nil, false_or]
  constructor
  · rintro ⟨tl, htl, hx⟩
    exact ⟨tl, htl, (bmrf_walk_mem hb sr curr _ hc tl.reverse act).mp hx⟩
  · rintro ⟨tl, htl, hx⟩
    exact ⟨tl, htl, (bmrf_walk_mem hb sr curr _ hc tl.reverse act).mpr hx⟩

theorem claim_C2_sc_admission_witness :
    let hb0 : MAction → MAction → Bool := fun _ _ => false
    let sr0 : MAction → Bool := fun _ => false
    let w1 : MAction :=
      ⟨1, 1, 1, 0, 4, ActionType.atomicWrite, true, false, true, false, false,
        false, false, none⟩
    let rd : MAction :=
      ⟨10, 0, 3, 0, 4, ActionType.atomicRead, false, false, false, true, false,
        false, false, none⟩
    (rd.isRMWR = false) ∧
    (w1 ∈ build_may_read_from hb0 sr0 none rd [[w1]] ↔
      ∃ tl ∈ [[w1]], w1 ∈ bmrf_walked hb0 rd tl.reverse ∧
        allow_read_sc hb0 rd w1
          (if rd.isSeqcst then none else none) = true) := by
  intro hb0 sr0 w1 rd
  exact ⟨rfl, (claim_C2_sc_admission hb0 sr0 none rd w1 none [] [[w1]]
    rfl).2.2⟩

/-! ## Supporting lemmas for w_modification_order (C4) -/

theorem w_mo_edges_mono (hb : MAction → MAction → Bool)
    (fbs : Nat → Option Nat) (tl : List (List MAction)) (curr : MAction)
    (s : WState) :
    ∀ p ∈ s.edges, p ∈ (w_modification_order hb fbs tl curr s).edges := by
  intro p hp
  simp only [w_modification_order]
  exact List.mem_append_left _ hp

theorem runWrites_mono (hb : MAction → MAction → Bool) (steps : List WStep) :
    ∀ (s : WState) (p : Nat × Nat), p ∈ s.edges →
      p ∈ (runWrites hb steps s).edges := by
  induction steps with
  | nil => intro s p hp; exact hp
  | cons stp rest ih =>
    intro s p hp
    exact ih _ p (w_mo_edges_mono hb stp.fbs stp.thrd_lists stp.curr s p hp)

theorem w_mo_sc_effect (hb : MAction → MAction → Bool)
    (fbs : Nat → Option Nat) (tl : List (List MAction)) (curr : MAction)
    (s : WState) (W : MAction) (hc : curr.isSeqcst = true)
    (hl : s.lastSC = some W) :
    (W.aid, curr.aid) ∈ (w_modification_order hb fbs tl curr s).edges ∧
      (w_modification_order hb fbs tl curr s).lastSC = some curr := by
  constructor
  · simp only [w_modification_order, hc, hl, if_true]
    refine List.mem_append_right _ ?_
    simp
  · simp [w_modification_order, hc, hl]

theorem w_mo_lastSC_of_sc (hb : MAction → MAction → Bool)
    (fbs : Nat → Option Nat) (tl : List (List MAction)) (curr : MAction)
    (s : WState) (hc : curr.isSeqcst = true) :
    (w_modification_order hb fbs tl curr s).lastSC = some curr := by
  simp [w_modification_order, hc]

theorem w_mo_lastSC_of_not_sc (hb : MAction → MAction → Bool)
    (fbs : Nat → Option Nat) (tl : List (List MAction)) (curr : MAction)
    (s : WState) (hc : curr.isSeqcst = false) :
    (w_modification_order hb fbs tl curr s).lastSC = s.lastSC := by
  simp [w_modification_order, hc]

/-- Along a sequence of w_modification_order calls at one location the
recorded last seq-cst write and the seq-cst writes processed so far
form a chain of MO edges in processing order. -/
theorem runWrites_chain (hb : MAction → MAction → Bool) :
    ∀ (steps : List WStep) (s : WState),
      List.Chain' (fun a b => (a.aid, b.aid) ∈ (runWrites hb steps s).edges)
        (s.lastSC.toList ++
          (steps.map WStep.curr).filter (fun a => a.isSeqcst)) := by
  intro steps
  induction steps with
  | nil =>
    intro s
    cases h : s.lastSC <;> simp [h]
  | cons stp rest ih =>
    intro s
    have hrun : runWrites hb (stp :: rest) s =
        runWrites hb rest
          (w_modification_order hb stp.fbs stp.thrd_lists stp.curr s) := rfl
    cases hsc : stp.curr.isSeqcst with
    | false =>
      have hls := w_mo_lastSC_of_not_sc hb stp.fbs stp.thrd_lists stp.curr s hsc
      have h2 := ih (w_modification_order hb stp.fbs stp.thrd_lists stp.curr s)
      rw [hls] at h2
      simpa [hrun, List.filter_cons, hsc] using h2
    | true =>
      have hls := w_mo_lastSC_of_sc hb stp.fbs stp.thrd_lists stp.curr s hsc
      have h2 := ih (w_modification_order hb stp.fbs stp.thrd_lists stp.curr s)
      rw [hls] at h2
      simp only [Option.toList_some, List.singleton_append] at h2
      simp only [hrun, List.map_cons, List.filter_cons, hsc, if_pos]
      cases hsl : s.lastSC with
      | none => simpa using h2
      | some W =>
        simp only [Option.toList_some, List.singleton_append]
        refine List.chain'_cons.mpr ⟨?_, h2⟩
        have hmem :=
          (w_mo_sc_effect hb stp.fbs stp.thrd_lists stp.curr s W hsc hsl).1
        exact runWrites_mono hb rest _ _ hmem

theorem chain'_pairwise_of_trans {R : MAction → MAction → Prop}
    (tr : ∀ a b c, R a b → R b c → R a c) :
    ∀ l : List MAction, List.Chain' R l → l.Pairwise R := by
  intro l
  induction l with
  | nil => intro _; exact List.Pairwise.nil
  | cons a t ih =>
    intro h
    cases t with
    | nil => exact List.pairwise_singleton R a
    | cons b u =>
      rcases List.chain'_cons.mp h with ⟨hab, hbu⟩
      have hp := ih hbu
      refine List.Pairwise.cons ?_ hp
      intro x hx
      rcases List.mem_cons.mp hx with rfl | hx
      · exact hab
      · exact tr _ _ _ hab ((List.pairwise_cons.mp hp).1 x hx)

/-- C4: a seq-cst write processed by w_modification_order gains an MO
edge from the previously recorded last seq-cst write of its location
(when one exists) and becomes the location's recorded last seq-cst
write; consequently, over any sequence of writes processed at one
location starting with an empty obj_last_sc_map entry, the MO graph
orders every earlier seq-cst write before every later one. -/
theorem claim_C4_w_mo_seqcst :
    (∀ (hb : MAction → MAction → Bool) (fbs : Nat → Option Nat)
      (tl : List (List MAction)) (curr : MAction) (s : WState) (W : MAction),
      curr.isSeqcst = true → s.lastSC = some W →
        (W.aid, curr.aid) ∈ (w_modification_order hb fbs tl curr s).edges ∧
        (w_modification_order hb fbs tl curr s).lastSC = some curr) ∧
    (∀ (hb : MAction → MAction → Bool) (steps : List WStep)
      (E0 : List (Nat × Nat)),
      ((steps.map WStep.curr).filter (fun a => a.isSeqcst)).Pairwise
        (fun a b => Reach (runWrites hb steps ⟨none, E0⟩).edges a.aid b.aid)) := by
  constructor
  · intro hb fbs tl curr s W hc hl
    exact w_mo_sc_effect hb fbs tl curr s W hc hl
  · intro hb steps E0
    have hch := runWrites_chain hb steps ⟨none, E0⟩
    simp only [Option.toList_none, List.nil_append] at hch
    have hch2 : List.Chain'
        (fun a b : MAction =>
          Reach (runWrites hb steps ⟨none, E0⟩).edges a.aid b.aid)
        ((steps.map WStep.curr).filter (fun a => a.isSeqcst)) :=
      hch.imp (fun a b h => Reach.single h)
    exact chain'_pairwise_of_trans
      (R := fun a b : MAction =>
        Reach (runWrites hb steps ⟨none, E0⟩).edges a.aid b.aid)
      (fun a b c h1 h2 => Reach.trans h1 h2) _ hch2

theorem claim_C4_w_mo_seqcst_witness :
    let hb0 : MAction → MAction → Bool := fun _ _ => false
    let fbs0 : Nat → Option Nat := fun _ => none
    let w1 : MAction :=
      ⟨1, 1, 1, 0, 8, ActionType.atomicWrite, true, false, true, false, false,
        false, false, none⟩
    let w2 : MAction :=
      ⟨2, 2, 2, 0, 8, ActionType.atomicWrite, true, false, true, false, false,
        false, false, none⟩
    let s1 : WState := ⟨some w1, []⟩
    (w2.isSeqcst = true) ∧ (s1.lastSC = some w1) ∧
    ((w1.aid, w2.aid) ∈ (w_modification_order hb0 fbs0 [] w2 s1).edges ∧
      (w_modification_order hb0 fbs0 [] w2 s1).lastSC = some w2) := by
  intro hb0 fbs0 w1 w2 s1
  exact ⟨rfl, rfl,
    claim_C4_w_mo_seqcst.1 hb0 fbs0 [] w2 s1 w1 rfl rfl⟩

end C11
